import Mathlib

/-!
# Mining candidates (src/mining/candidates.h)

A shallow embedding of `CMiningCandidate` and `CMiningCandidateManager`.

* `std::shared_ptr<T>` is an optional address into a store of `T` objects
  (`none` is the null pointer). The store keeps every object; `SharedWorld` adds
  the use counts of the candidate objects, which say which of them are alive.
* `std::map<MiningCandidateId, CMiningCandidateRef>` is an association list
  with unique keys (`AList`); only `find`, `erase`, `size` and insertion are
  used, none of which depends on the iteration order.
* `std::mutex` is not modelled: every method is one atomic step on the state.
-/

/-! ## Data model -/

/-- A 256-bit hash value; only equality of hashes is ever used. -/
abbrev uint256 := Nat

/-- The type `boost::uuids::uuid`: candidate ids, compared for equality only. -/
abbrev MiningCandidateId := Nat

/-- Modelled from the spec: `primitives/block.h` is not among the sources. A block is an
opaque payload that carries the hash of its previous block. -/
structure CBlock where
  hashPrevBlock : uint256
  payload : List Nat
  deriving DecidableEq, Repr

/-- The block made by `std::make_shared<CBlock>()`: a null block. -/
def CBlock.null : CBlock := { hashPrevBlock := 0, payload := [] }

/-- The type `std::shared_ptr<CBlock>`: `none` is the null pointer, `some a` points at
block number `a` of the block store. -/
abbrev CBlockRef := Option Nat

/-- The data members of `class CMiningCandidate`. -/
structure CMiningCandidate where
  block : CBlockRef
  id : MiningCandidateId
  deriving DecidableEq, Repr

/-- The type `std::shared_ptr<CMiningCandidate>`. -/
abbrev CMiningCandidateRef := Option Nat

/-- The objects that shared pointers point at: blocks and candidates, by address. -/
structure Memory where
  blocks : List CBlock
  objects : List CMiningCandidate
  deriving DecidableEq, Repr

/-- Nothing allocated yet. -/
def Memory.empty : Memory := { blocks := [], objects := [] }

/-- The block a block reference points at, if any. -/
def Memory.blockAt (mem : Memory) (r : CBlockRef) : Option CBlock :=
  match r with
  | some a => mem.blocks[a]?
  | none => none

/-- The candidate a candidate reference points at, if any. -/
def Memory.candidateAt (mem : Memory) (r : CMiningCandidateRef) : Option CMiningCandidate :=
  match r with
  | some a => mem.objects[a]?
  | none => none

/-! ## CMiningCandidate -/

/-- Method `CBlockRef GetBlock() const { return block; }`. -/
def CMiningCandidate.GetBlock (this : CMiningCandidate) : CBlockRef :=
  this.block

/-- Method `void SetBlock(const CBlockRef &blockRef) { block = blockRef; }`. -/
def CMiningCandidate.SetBlock (blockRef : CBlockRef) (this : CMiningCandidate) :
    CMiningCandidate :=
  { this with block := blockRef }

/-- Method `MiningCandidateId GetId() const { return id; }`. -/
def CMiningCandidate.GetId (this : CMiningCandidate) : MiningCandidateId :=
  this.id

/-- Allocation `std::make_shared<CBlock>()`: a fresh null block at the next free address. -/
def make_shared_CBlock (blocks : List CBlock) : CBlockRef × List CBlock :=
  (some blocks.length, blocks ++ [CBlock.null])

/-- The assignment `r->hashPrevBlock = h` through a block reference. -/
def storeHashPrevBlock (r : CBlockRef) (h : uint256) (blocks : List CBlock) : List CBlock :=
  match r with
  | some a =>
    match blocks[a]? with
    | some b => blocks.set a { b with hashPrevBlock := h }
    | none => blocks
  | none => blocks

/-- The constructor
`CMiningCandidate(MiningCandidateId _id, uint256 hashPrevBlock) : id{_id}
   { block->hashPrevBlock = hashPrevBlock; }`
with the member initialiser `block { std::make_shared<CBlock>() }`. -/
def CMiningCandidate.ctor (_id : MiningCandidateId) (hashPrevBlock : uint256)
    (blocks : List CBlock) : CMiningCandidate × List CBlock :=
  let fresh := make_shared_CBlock blocks
  let this : CMiningCandidate := { block := fresh.1, id := _id }
  (this, storeHashPrevBlock this.block hashPrevBlock fresh.2)

/-- One call on a candidate object that a holder of its handle can make. -/
inductive CandidateCall where
  | setBlock (blockRef : CBlockRef)
  | getBlock
  | getId
  deriving DecidableEq, Repr

/-- The candidate object after one call; only `SetBlock` is not `const`. -/
def CMiningCandidate.call (this : CMiningCandidate) : CandidateCall → CMiningCandidate
  | .setBlock blockRef => this.SetBlock blockRef
  | .getBlock => this
  | .getId => this

/-- The candidate object after a sequence of calls, first call first. -/
def CMiningCandidate.calls (this : CMiningCandidate) (cs : List CandidateCall) :
    CMiningCandidate :=
  cs.foldl CMiningCandidate.call this

/-! ## CMiningCandidateManager -/

/-- The alias `using CandidateMap = std::map<MiningCandidateId, CMiningCandidateRef>`. -/
abbrev CandidateMap := AList (fun _ : MiningCandidateId => CMiningCandidateRef)

/-- Modelled from the spec: the creation time of each candidate, by id (the timestamp
bookkeeping of the eviction policy); the classes in the header have no such member. -/
abbrev CreationTimes := AList (fun _ : MiningCandidateId => Int)

/-- The data members of `class CMiningCandidateManager`. `mIdGenerator` is the internal
state of the `boost::uuids::random_generator`; `createdAt` is the bookkeeping that the
sweep of the spec needs, see `CreationTimes`. -/
structure CMiningCandidateManager where
  candidates : CandidateMap
  mIdGenerator : Nat
  createdAt : CreationTimes

/-- A manager right after construction: `candidates {}`, generator in state `seed`. -/
def CMiningCandidateManager.init (seed : Nat) : CMiningCandidateManager :=
  { candidates := ∅, mIdGenerator := seed, createdAt := ∅ }

/-- Method `void Remove(MiningCandidateId candidateId) { ...; candidates.erase(candidateId); }`. -/
def CMiningCandidateManager.Remove (candidateId : MiningCandidateId)
    (this : CMiningCandidateManager) : CMiningCandidateManager :=
  { this with candidates := this.candidates.erase candidateId }

/-- Method `size_t Size() const { ...; return candidates.size(); }`: the count, and the
manager after the call. -/
def CMiningCandidateManager.Size (this : CMiningCandidateManager) :
    Nat × CMiningCandidateManager :=
  (this.candidates.entries.length, this)

/-- Modelled from the spec: the body of `Get` is not among the sources. It returns the
candidate stored under `candidateId` if present and the null handle (not found) otherwise,
and has no side effects; the result is paired with the manager after the call. -/
def CMiningCandidateManager.Get (candidateId : MiningCandidateId)
    (this : CMiningCandidateManager) : CMiningCandidateRef × CMiningCandidateManager :=
  match this.candidates.lookup candidateId with
  | some ref => (ref, this)
  | none => (none, this)

/-- Modelled from the spec: the body of `Create` is not among the sources. It draws a fresh
id from the generator (`generate` is `operator()` of the `boost::uuids::random_generator`,
a step on the generator state), constructs a candidate linked to `hashPrevBlock`, stamps
it with the clock reading `now`, inserts it and returns a shared handle. A collision of
the drawn id with a stored one is a fatal invariant violation: the call aborts (`none`). -/
def CMiningCandidateManager.Create (generate : Nat → MiningCandidateId × Nat) (now : Int)
    (hashPrevBlock : uint256) (mem : Memory) (this : CMiningCandidateManager) :
    Option (CMiningCandidateRef × Memory × CMiningCandidateManager) :=
  let nextId := (generate this.mIdGenerator).1
  if nextId ∈ this.candidates.keys then none
  else
    let made := CMiningCandidate.ctor nextId hashPrevBlock mem.blocks
    let candidate : CMiningCandidateRef := some mem.objects.length
    some (candidate,
      { blocks := made.2, objects := mem.objects ++ [made.1] },
      { candidates := this.candidates.insert nextId candidate,
        mIdGenerator := (generate this.mIdGenerator).2,
        createdAt := this.createdAt.insert nextId now })

/-- Modelled from the spec: an entry is stale when its creation time is older than
`now - maxAge`. -/
def CMiningCandidateManager.isStale (this : CMiningCandidateManager) (maxAge now : Int)
    (candidateId : MiningCandidateId) : Bool :=
  match this.createdAt.lookup candidateId with
  | some t => decide (t < now - maxAge)
  | none => false

/-- Modelled from the spec: the body of `RemoveOldCandidates` is not among the sources. The
sweep visits every entry and erases those whose creation time is older than
`now - maxAge`; the threshold and the clock reading are supplied by the caller. -/
def CMiningCandidateManager.RemoveOldCandidates (maxAge now : Int)
    (this : CMiningCandidateManager) : CMiningCandidateManager :=
  { this with
    candidates :=
      (this.candidates.keys.filter (this.isStale maxAge now)).foldl
        (fun m k => m.erase k) this.candidates }

/-- Every stored handle points at an object: `Create` stores the result of a
`make_shared`, and nothing else ever inserts into the map. -/
def CMiningCandidateManager.NoNullEntry (this : CMiningCandidateManager) : Prop :=
  ∀ candidateId, this.candidates.lookup candidateId ≠ some none

/-! ## Sequences of registry operations -/

/-- One call on the registry that changes it. -/
inductive ManagerCall where
  | create (hashPrevBlock : uint256) (now : Int)
  | remove (candidateId : MiningCandidateId)
  | removeOld (maxAge now : Int)
  deriving DecidableEq, Repr

/-- What a call did to the set of stored ids: `issued i` when `Create` returned a candidate
with id `i`, `removed i` when the entry for `i` was deleted by `Remove` or by the sweep. -/
inductive Event where
  | issued (candidateId : MiningCandidateId)
  | removed (candidateId : MiningCandidateId)
  deriving DecidableEq, Repr

/-- The state the calls act on: the objects in memory and the manager. -/
abbrev World := Memory × CMiningCandidateManager

/-- One call: its events and the world after it; `none` when `Create` aborts. -/
def ManagerCall.step (generate : Nat → MiningCandidateId × Nat) (w : World) :
    ManagerCall → Option (List Event × World)
  | .create hashPrevBlock now =>
    match w.2.Create generate now hashPrevBlock w.1 with
    | none => none
    | some (candidate, mem, mgr) =>
      some (((mem.candidateAt candidate).map fun c => Event.issued c.GetId).toList,
        (mem, mgr))
  | .remove candidateId =>
    some (if candidateId ∈ w.2.candidates.keys then [Event.removed candidateId] else [],
      (w.1, w.2.Remove candidateId))
  | .removeOld maxAge now =>
    some ((w.2.candidates.keys.filter (w.2.isStale maxAge now)).map Event.removed,
      (w.1, w.2.RemoveOldCandidates maxAge now))

/-- A sequence of calls, first call first: all events in order and the final world. -/
def runCalls (generate : Nat → MiningCandidateId × Nat) :
    List ManagerCall → World → Option (List Event × World)
  | [], w => some ([], w)
  | c :: cs, w =>
    match c.step generate w with
    | none => none
    | some (evs, w') =>
      match runCalls generate cs w' with
      | none => none
      | some (evs', w'') => some (evs ++ evs', w'')

/-- The ids issued and not removed since, starting from the ids in `live`. -/
def liveAfter (live : List MiningCandidateId) : List Event → List MiningCandidateId
  | [] => live
  | .issued i :: es => liveAfter (i :: live) es
  | .removed i :: es => liveAfter (live.filter fun j => j ≠ i) es

/-- No id is issued while it is live: every `issued i` comes when `i` is not among the
ids issued earlier (or in `live`) and not removed since. -/
def noLiveReissue (live : List MiningCandidateId) : List Event → Bool
  | [] => true
  | .issued i :: es => decide (i ∉ live) && noLiveReissue (i :: live) es
  | .removed i :: es => noLiveReissue (live.filter fun j => j ≠ i) es

/-- The call `p->GetId()` through a candidate handle; `none` when `p` points at nothing. -/
def Memory.GetId (mem : Memory) (p : CMiningCandidateRef) : Option MiningCandidateId :=
  (mem.candidateAt p).map CMiningCandidate.GetId

/-- The call `p->GetBlock()` through a candidate handle; `none` when `p` points at
nothing. -/
def Memory.GetBlock (mem : Memory) (p : CMiningCandidateRef) : Option CBlockRef :=
  (mem.candidateAt p).map CMiningCandidate.GetBlock

/-- The call `p->SetBlock(blockRef)` through a candidate handle: the object that `p` points
at is updated in place, for every holder of a handle to it; `none` when `p` points at
nothing. -/
def Memory.SetBlock (p : CMiningCandidateRef) (blockRef : CBlockRef) (mem : Memory) :
    Option Memory :=
  match p with
  | none => none
  | some a =>
    match mem.objects[a]? with
    | none => none
    | some c => some { mem with objects := mem.objects.set a (c.SetBlock blockRef) }

/-- Key-identity consistency: every entry of the map points at a candidate object whose
`GetId()` is the key the entry is stored under. -/
def CMiningCandidateManager.KeyIdentity (this : CMiningCandidateManager) (mem : Memory) :
    Prop :=
  ∀ candidateId ref, this.candidates.lookup candidateId = some ref →
    ∃ c, mem.candidateAt ref = some c ∧ c.GetId = candidateId

/-! ## Shared ownership -/

/-- The registry with the objects in memory and, for every candidate object, its
`shared_ptr` use count: the number of handles to it that exist, in the map or with callers.
An object whose use count is 0 has been destroyed. -/
structure SharedWorld where
  mem : Memory
  objectUses : List Nat
  mgr : CMiningCandidateManager

/-- The use count `p.use_count()` of the object behind a handle; 0 for the null handle. -/
def SharedWorld.use_count (sw : SharedWorld) (p : CMiningCandidateRef) : Nat :=
  match p with
  | some a => (sw.objectUses[a]?).getD 0
  | none => 0

/-- Copying a handle: one more owner of the object behind it. -/
def SharedWorld.acquire (p : CMiningCandidateRef) (sw : SharedWorld) : SharedWorld :=
  match p with
  | some a => { sw with objectUses := sw.objectUses.set a (sw.use_count (some a) + 1) }
  | none => sw

/-- Destroying a handle: one owner less of the object behind it; when the last owner goes,
the use count is 0 and the object is destroyed. -/
def SharedWorld.release (p : CMiningCandidateRef) (sw : SharedWorld) : SharedWorld :=
  match p with
  | some a => { sw with objectUses := sw.objectUses.set a (sw.use_count (some a) - 1) }
  | none => sw

/-- The call `p->GetId()` by a caller: `none` when the object behind `p` has been destroyed
or `p` points at nothing. -/
def SharedWorld.GetId (sw : SharedWorld) (p : CMiningCandidateRef) :
    Option MiningCandidateId :=
  if 0 < sw.use_count p then sw.mem.GetId p else none

/-- The call `p->GetBlock()` by a caller: `none` when the object behind `p` has been
destroyed or `p` points at nothing. -/
def SharedWorld.GetBlock (sw : SharedWorld) (p : CMiningCandidateRef) : Option CBlockRef :=
  if 0 < sw.use_count p then sw.mem.GetBlock p else none

/-- The method `Remove` with ownership: `candidates.erase(candidateId)` destroys the handle
stored in the erased entry, if there is one. -/
def SharedWorld.Remove (candidateId : MiningCandidateId) (sw : SharedWorld) : SharedWorld :=
  match sw.mgr.candidates.lookup candidateId with
  | some p =>
    { mem := sw.mem, objectUses := (sw.release p).objectUses,
      mgr := sw.mgr.Remove candidateId }
  | none => { sw with mgr := sw.mgr.Remove candidateId }

/-- The method `Get` with ownership: the caller receives a copy of the stored handle. -/
def SharedWorld.Get (candidateId : MiningCandidateId) (sw : SharedWorld) :
    CMiningCandidateRef × SharedWorld :=
  ((sw.mgr.Get candidateId).1,
    { mem := sw.mem, objectUses := (sw.acquire (sw.mgr.Get candidateId).1).objectUses,
      mgr := (sw.mgr.Get candidateId).2 })

/-- The method `Create` with ownership: the new object has two owners, the entry of the map
and the caller that receives the returned handle. -/
def SharedWorld.Create (generate : Nat → MiningCandidateId × Nat) (now : Int)
    (hashPrevBlock : uint256) (sw : SharedWorld) :
    Option (CMiningCandidateRef × SharedWorld) :=
  match sw.mgr.Create generate now hashPrevBlock sw.mem with
  | none => none
  | some (candidate, mem, mgr) =>
    some (candidate, { mem := mem, objectUses := sw.objectUses ++ [2], mgr := mgr })

/-- The number of entries of the map that store the handle `p`. -/
def mapCopies (m : CandidateMap) (p : CMiningCandidateRef) : Nat :=
  m.entries.countP fun e => decide (e.2 = p)

/-- The use counts are sound: every object has a use count, and the handles stored in the
map are counted among the owners of their objects. -/
def SharedWorld.Consistent (sw : SharedWorld) : Prop :=
  sw.objectUses.length = sw.mem.objects.length ∧
    ∀ a, mapCopies sw.mgr.candidates (some a) ≤ sw.use_count (some a)

/-- A fresh registry with nothing allocated. -/
def SharedWorld.init (seed : Nat) : SharedWorld :=
  { mem := Memory.empty, objectUses := [], mgr := CMiningCandidateManager.init seed }

/-! ## Sample inputs -/

/-- A generator that counts upwards from 100. -/
def sampleCounter : Nat → MiningCandidateId × Nat := fun s => (s + 100, s + 1)

/-- A manager holding one candidate, id 100, created at time 0 on block hash 55. -/
def sampleManager : CMiningCandidateManager :=
  { candidates := AList.insert 100 (some 0) ∅, mIdGenerator := 1,
    createdAt := AList.insert 100 0 ∅ }

/-- The memory that goes with `sampleManager`. -/
def sampleMemory : Memory :=
  { blocks := [{ hashPrevBlock := 55, payload := [] }],
    objects := [{ block := some 0, id := 100 }] }

/-- A manager holding candidate 100 created at time 0 and candidate 101 created at
time 5. -/
def sampleTwo : CMiningCandidateManager :=
  { candidates := AList.insert 101 (some 1) (AList.insert 100 (some 0) ∅),
    mIdGenerator := 2,
    createdAt := AList.insert 101 5 (AList.insert 100 0 ∅) }

/-- The registry of `sampleManager` with its one candidate owned by the map and by the
caller of `Create`. -/
def sampleShared : SharedWorld :=
  { mem := sampleMemory, objectUses := [2], mgr := sampleManager }

/-! ## Lemmas on the stores -/

theorem getElem?_append_singleton_length {α : Type} (l : List α) (x : α) :
    (l ++ [x])[l.length]? = some x := by
  simp

theorem ctor_fst (_id : MiningCandidateId) (h : uint256) (blocks : List CBlock) :
    (CMiningCandidate.ctor _id h blocks).1 = { block := some blocks.length, id := _id } := by
  simp [CMiningCandidate.ctor, make_shared_CBlock]

theorem ctor_snd (_id : MiningCandidateId) (h : uint256) (blocks : List CBlock) :
    (CMiningCandidate.ctor _id h blocks).2
      = blocks ++ [{ hashPrevBlock := h, payload := [] }] := by
  simp [CMiningCandidate.ctor, make_shared_CBlock, storeHashPrevBlock, CBlock.null]

theorem erase_absent (candidateId : MiningCandidateId) (m : CandidateMap)
    (h : candidateId ∉ m) : m.erase candidateId = m :=
  AList.ext (List.kerase_of_not_mem_keys h)

theorem Create_eq_some {generate : Nat → MiningCandidateId × Nat} {now : Int}
    {h : uint256} {mem : Memory} {this : CMiningCandidateManager}
    (hfresh : (generate this.mIdGenerator).1 ∉ this.candidates.keys) :
    this.Create generate now h mem
      = some (some mem.objects.length,
          { blocks := mem.blocks ++ [{ hashPrevBlock := h, payload := [] }],
            objects := mem.objects ++ [{ block := some mem.blocks.length,
                                         id := (generate this.mIdGenerator).1 }] },
          { candidates := this.candidates.insert (generate this.mIdGenerator).1
              (some mem.objects.length),
            mIdGenerator := (generate this.mIdGenerator).2,
            createdAt := this.createdAt.insert (generate this.mIdGenerator).1 now }) := by
  simp only [CMiningCandidateManager.Create, if_neg hfresh, ctor_fst, ctor_snd]

theorem Create_eq_none {generate : Nat → MiningCandidateId × Nat} {now : Int}
    {h : uint256} {mem : Memory} {this : CMiningCandidateManager}
    (hlive : (generate this.mIdGenerator).1 ∈ this.candidates.keys) :
    this.Create generate now h mem = none := by
  simp only [CMiningCandidateManager.Create, if_pos hlive]

theorem Get_fst (candidateId : MiningCandidateId) (this : CMiningCandidateManager) :
    (this.Get candidateId).1 = (this.candidates.lookup candidateId).getD none := by
  unfold CMiningCandidateManager.Get
  cases this.candidates.lookup candidateId <;> rfl

theorem Get_snd (candidateId : MiningCandidateId) (this : CMiningCandidateManager) :
    (this.Get candidateId).2 = this := by
  unfold CMiningCandidateManager.Get
  cases this.candidates.lookup candidateId <;> rfl

theorem mem_foldl_erase (ks : List MiningCandidateId) (m : CandidateMap)
    (x : MiningCandidateId) :
    x ∈ ks.foldl (fun m k => m.erase k) m ↔ x ∉ ks ∧ x ∈ m := by
  induction ks generalizing m with
  | nil => simp
  | cons k ks ih =>
    rw [List.foldl_cons, ih, AList.mem_erase, List.mem_cons]
    tauto

theorem lookup_foldl_erase_of_not_mem (ks : List MiningCandidateId) (m : CandidateMap)
    (x : MiningCandidateId) (hx : x ∉ ks) :
    (ks.foldl (fun m k => m.erase k) m).lookup x = m.lookup x := by
  induction ks generalizing m with
  | nil => rfl
  | cons k ks ih =>
    rw [List.mem_cons, not_or] at hx
    rw [List.foldl_cons, ih _ hx.2, AList.lookup_erase_ne hx.1]

theorem size_eq_keys_length (m : CandidateMap) : m.entries.length = m.keys.length := by
  simp [AList.keys, List.keys]

theorem size_erase_of_mem (m : CandidateMap) (k : MiningCandidateId) (hk : k ∈ m) :
    (m.erase k).entries.length + 1 = m.entries.length := by
  have hpos : 0 < m.keys.length := List.length_pos_of_mem (AList.mem_keys.mp hk)
  rw [size_eq_keys_length, size_eq_keys_length, AList.keys_erase,
    List.length_erase_of_mem (AList.mem_keys.mp hk)]
  omega

theorem NoNullEntry_init (seed : Nat) : (CMiningCandidateManager.init seed).NoNullEntry := by
  intro candidateId
  simp [CMiningCandidateManager.init]

theorem NoNullEntry_Remove (this : CMiningCandidateManager) (candidateId : MiningCandidateId)
    (hinv : this.NoNullEntry) : (this.Remove candidateId).NoNullEntry := by
  intro x
  by_cases hx : x = candidateId
  · subst hx
    simp [CMiningCandidateManager.Remove]
  · simpa [CMiningCandidateManager.Remove, AList.lookup_erase_ne hx] using hinv x

theorem NoNullEntry_RemoveOldCandidates (this : CMiningCandidateManager) (maxAge now : Int)
    (hinv : this.NoNullEntry) : (this.RemoveOldCandidates maxAge now).NoNullEntry := by
  intro x hx
  have hmem : x ∈ (this.RemoveOldCandidates maxAge now).candidates := by
    rw [← AList.lookup_isSome, hx]
    rfl
  simp only [CMiningCandidateManager.RemoveOldCandidates] at hx hmem
  rw [mem_foldl_erase] at hmem
  rw [lookup_foldl_erase_of_not_mem _ _ _ hmem.1] at hx
  exact hinv x hx

theorem NoNullEntry_Create {generate : Nat → MiningCandidateId × Nat} {now : Int}
    {h : uint256} {mem mem' : Memory} {this this' : CMiningCandidateManager}
    {candidate : CMiningCandidateRef} (hinv : this.NoNullEntry)
    (hc : this.Create generate now h mem = some (candidate, mem', this')) :
    this'.NoNullEntry := by
  by_cases hfresh : (generate this.mIdGenerator).1 ∈ this.candidates.keys
  · rw [Create_eq_none hfresh] at hc
    cases hc
  · rw [Create_eq_some hfresh] at hc
    cases hc
    intro x
    by_cases hx : x = (generate this.mIdGenerator).1
    · subst hx
      simp
    · simpa [AList.lookup_insert_ne hx] using hinv x

theorem NoNullEntry_sampleManager : sampleManager.NoNullEntry := by
  have h := NoNullEntry_Create (NoNullEntry_init 0)
    (show (CMiningCandidateManager.init 0).Create sampleCounter 0 55 Memory.empty
      = some (some 0, sampleMemory, sampleManager) from rfl)
  exact h

/-! ## Lemmas on sequences of calls -/

theorem liveAfter_append (live : List MiningCandidateId) (a b : List Event) :
    liveAfter live (a ++ b) = liveAfter (liveAfter live a) b := by
  induction a generalizing live with
  | nil => rfl
  | cons e es ih => cases e <;> simp [liveAfter, ih]

theorem noLiveReissue_append (live : List MiningCandidateId) (a b : List Event) :
    noLiveReissue live (a ++ b)
      = (noLiveReissue live a && noLiveReissue (liveAfter live a) b) := by
  induction a generalizing live with
  | nil => simp [noLiveReissue, liveAfter]
  | cons e es ih => cases e <;> simp [noLiveReissue, liveAfter, ih, Bool.and_assoc]

theorem noLiveReissue_map_removed (live ks : List MiningCandidateId) :
    noLiveReissue live (ks.map Event.removed) = true := by
  induction ks generalizing live with
  | nil => rfl
  | cons k ks ih => simp [noLiveReissue, ih]

theorem mem_liveAfter_map_removed (live ks : List MiningCandidateId)
    (x : MiningCandidateId) :
    x ∈ liveAfter live (ks.map Event.removed) ↔ x ∈ live ∧ x ∉ ks := by
  induction ks generalizing live with
  | nil => simp [liveAfter]
  | cons k ks ih =>
    simp only [List.map_cons, liveAfter, ih, List.mem_filter, List.mem_cons, not_or,
      decide_eq_true_eq]
    tauto

/-- What a successful `Create` call does, as seen by `ManagerCall.step`. -/
theorem step_create {generate : Nat → MiningCandidateId × Nat} {w w' : World}
    {hashPrevBlock : uint256} {now : Int} {evs : List Event}
    (h : (ManagerCall.create hashPrevBlock now).step generate w = some (evs, w')) :
    ∃ i, i ∉ w.2.candidates ∧ evs = [Event.issued i] ∧
      w'.2.candidates = w.2.candidates.insert i (some w.1.objects.length) := by
  by_cases hfresh : (generate w.2.mIdGenerator).1 ∈ w.2.candidates.keys
  · simp [ManagerCall.step, Create_eq_none hfresh] at h
  · simp only [ManagerCall.step, Create_eq_some hfresh, Option.some.injEq,
      Prod.mk.injEq] at h
    obtain ⟨hev, hw⟩ := h
    refine ⟨(generate w.2.mIdGenerator).1, hfresh, ?_, ?_⟩
    · rw [← hev]
      simp [Memory.candidateAt, CMiningCandidate.GetId]
    · rw [← hw]

/-- Every call keeps the ids issued and not removed equal to the ids stored, and issues no
id that is stored. -/
theorem step_live {generate : Nat → MiningCandidateId × Nat} {w w' : World}
    {c : ManagerCall} {evs : List Event} {live : List MiningCandidateId}
    (hlive : ∀ x, x ∈ live ↔ x ∈ w.2.candidates)
    (h : c.step generate w = some (evs, w')) :
    noLiveReissue live evs = true ∧ ∀ x, x ∈ liveAfter live evs ↔ x ∈ w'.2.candidates := by
  cases c with
  | create hashPrevBlock now =>
    obtain ⟨i, hi, hev, hw⟩ := step_create h
    subst hev
    constructor
    · simp [noLiveReissue, hlive, hi]
    · intro x
      simp [liveAfter, hw, hlive]
  | remove candidateId =>
    simp only [ManagerCall.step, Option.some.injEq, Prod.mk.injEq] at h
    obtain ⟨hev, hw⟩ := h
    subst hev hw
    by_cases hk : candidateId ∈ w.2.candidates.keys
    · constructor
      · simp [hk, noLiveReissue]
      · intro x
        simp [hk, liveAfter, CMiningCandidateManager.Remove, hlive, and_comm]
    · constructor
      · simp [hk, noLiveReissue]
      · intro x
        simp only [hk, if_false, liveAfter, CMiningCandidateManager.Remove,
          erase_absent candidateId w.2.candidates hk]
        exact hlive x
  | removeOld maxAge now =>
    simp only [ManagerCall.step, Option.some.injEq, Prod.mk.injEq] at h
    obtain ⟨hev, hw⟩ := h
    subst hev hw
    refine ⟨noLiveReissue_map_removed _ _, fun x => ?_⟩
    simp only [mem_liveAfter_map_removed, CMiningCandidateManager.RemoveOldCandidates,
      mem_foldl_erase, hlive]
    tauto

theorem runCalls_live {generate : Nat → MiningCandidateId × Nat} (cs : List ManagerCall) :
    ∀ (w w' : World) (evs : List Event) (live : List MiningCandidateId),
      (∀ x, x ∈ live ↔ x ∈ w.2.candidates) → runCalls generate cs w = some (evs, w') →
      noLiveReissue live evs = true ∧
        ∀ x, x ∈ liveAfter live evs ↔ x ∈ w'.2.candidates := by
  induction cs with
  | nil =>
    intro w w' evs live hlive h
    simp only [runCalls, Option.some.injEq, Prod.mk.injEq] at h
    obtain ⟨hev, hw⟩ := h
    subst hev hw
    exact ⟨rfl, hlive⟩
  | cons c cs ih =>
    intro w w' evs live hlive h
    simp only [runCalls] at h
    cases hstep : c.step generate w with
    | none => simp [hstep] at h
    | some r =>
      obtain ⟨evs1, w1⟩ := r
      simp only [hstep] at h
      cases hrest : runCalls generate cs w1 with
      | none => simp [hrest] at h
      | some r2 =>
        obtain ⟨evs2, w2⟩ := r2
        simp only [hrest, Option.some.injEq, Prod.mk.injEq] at h
        obtain ⟨hev, hw⟩ := h
        subst hev hw
        have h1 := step_live hlive hstep
        have h2 := ih w1 w2 evs2 (liveAfter live evs1) h1.2 hrest
        rw [noLiveReissue_append, liveAfter_append, h1.1, h2.1]
        exact ⟨rfl, h2.2⟩

/-- A successful `Create` records the clock reading as the creation time of the id of
the candidate it returns. -/
theorem Create_createdAt {generate : Nat → MiningCandidateId × Nat} {now : Int}
    {h : uint256} {mem mem' : Memory} {this this' : CMiningCandidateManager}
    {candidate : CMiningCandidateRef}
    (hc : this.Create generate now h mem = some (candidate, mem', this')) :
    ∃ c, mem'.candidateAt candidate = some c ∧
      this'.candidates.lookup c.GetId = some candidate ∧
      this'.createdAt.lookup c.GetId = some now := by
  by_cases hfresh : (generate this.mIdGenerator).1 ∈ this.candidates.keys
  · rw [Create_eq_none hfresh] at hc
    cases hc
  · rw [Create_eq_some hfresh] at hc
    cases hc
    exact ⟨{ block := some mem.blocks.length, id := (generate this.mIdGenerator).1 },
      by simp [Memory.candidateAt], by simp [CMiningCandidate.GetId],
      by simp [CMiningCandidate.GetId]⟩

/-! ## Create, Get, Remove -/

/-- C1: if `Create(h)` returns a candidate, then `Get` with that candidate's id on the
resulting registry returns the same handle, it points at a candidate with that id, and the
block of that candidate has `hashPrevBlock = h`. -/
theorem Create_then_Get (generate : Nat → MiningCandidateId × Nat) (now : Int)
    (h : uint256) (mem mem' : Memory) (this this' : CMiningCandidateManager)
    (candidate : CMiningCandidateRef)
    (hc : this.Create generate now h mem = some (candidate, mem', this')) :
    ∃ c, mem'.candidateAt candidate = some c ∧
      ∃ found blk, mem'.candidateAt (this'.Get c.GetId).1 = some found ∧
        (this'.Get c.GetId).1 = candidate ∧
        found.GetId = c.GetId ∧
        mem'.blockAt found.GetBlock = some blk ∧ blk.hashPrevBlock = h := by
  by_cases hfresh : (generate this.mIdGenerator).1 ∈ this.candidates.keys
  · rw [Create_eq_none hfresh] at hc
    cases hc
  · rw [Create_eq_some hfresh] at hc
    cases hc
    refine ⟨{ block := some mem.blocks.length, id := (generate this.mIdGenerator).1 }, ?_,
      { block := some mem.blocks.length, id := (generate this.mIdGenerator).1 },
      { hashPrevBlock := h, payload := [] }, ?_, ?_, rfl, ?_, rfl⟩
    · simp [Memory.candidateAt]
    · simp [Get_fst, CMiningCandidate.GetId, Memory.candidateAt]
    · simp [Get_fst, CMiningCandidate.GetId]
    · simp [Memory.blockAt, CMiningCandidate.GetBlock]

/-- Witness of C1: creating on block hash 55 in a fresh registry. -/
theorem Create_then_Get_witness :
    ∃ c, sampleMemory.candidateAt (some 0) = some c ∧
      ∃ found blk, sampleMemory.candidateAt (sampleManager.Get c.GetId).1 = some found ∧
        (sampleManager.Get c.GetId).1 = some 0 ∧
        found.GetId = c.GetId ∧
        sampleMemory.blockAt found.GetBlock = some blk ∧ blk.hashPrevBlock = 55 :=
  Create_then_Get sampleCounter 0 55 Memory.empty sampleMemory
    (CMiningCandidateManager.init 0) sampleManager (some 0) rfl

/-- C2: after `Remove(id)` the registry has no entry for `id` and `Get(id)` reports
not-found (the null handle), whether or not `id` was present before. -/
theorem Get_after_Remove (this : CMiningCandidateManager) (candidateId : MiningCandidateId) :
    candidateId ∉ (this.Remove candidateId).candidates ∧
      (this.Remove candidateId).candidates.lookup candidateId = none ∧
      ((this.Remove candidateId).Get candidateId).1 = none := by
  have hl : (this.Remove candidateId).candidates.lookup candidateId = none := by
    simp [CMiningCandidateManager.Remove]
  refine ⟨AList.lookup_eq_none.mp hl, hl, ?_⟩
  rw [Get_fst, hl]
  rfl

/-- C3: `Remove(id)` on a registry with no entry for `id` leaves the registry unchanged,
and `Remove(id)` applied twice yields the same registry as `Remove(id)` applied once. -/
theorem Remove_idempotent (this : CMiningCandidateManager) (candidateId : MiningCandidateId) :
    (candidateId ∉ this.candidates → this.Remove candidateId = this) ∧
      (this.Remove candidateId).Remove candidateId = this.Remove candidateId := by
  have key : ∀ m : CMiningCandidateManager, candidateId ∉ m.candidates →
      m.Remove candidateId = m := by
    intro m hm
    cases m
    simp only [CMiningCandidateManager.Remove]
    congr
    exact erase_absent candidateId _ hm
  refine ⟨key this, key _ ?_⟩
  simp [CMiningCandidateManager.Remove]

/-- Witness of C3: removing id 3, which `sampleManager` does not hold. -/
theorem Remove_idempotent_witness :
    (3 ∉ sampleManager.candidates ∧ sampleManager.Remove 3 = sampleManager) ∧
      (sampleManager.Remove 3).Remove 3 = sampleManager.Remove 3 :=
  ⟨⟨by decide, (Remove_idempotent sampleManager 3).1 (by decide)⟩,
    (Remove_idempotent sampleManager 3).2⟩

/-- C4: in a registry whose stored handles are all non-null, `Get(id)` returns the stored
candidate when there is an entry for `id`, returns the null handle when there is none, the
result is non-null exactly when there is an entry, and the registry is unchanged. -/
theorem Get_found_iff (this : CMiningCandidateManager) (candidateId : MiningCandidateId)
    (hinv : this.NoNullEntry) :
    (∀ ref, this.candidates.lookup candidateId = some ref →
        (this.Get candidateId).1 = ref) ∧
      (this.candidates.lookup candidateId = none → (this.Get candidateId).1 = none) ∧
      ((this.Get candidateId).1 ≠ none ↔ candidateId ∈ this.candidates) ∧
      (this.Get candidateId).2 = this := by
  refine ⟨?_, ?_, ?_, Get_snd _ _⟩
  · intro ref href
    rw [Get_fst, href]
    rfl
  · intro hnone
    rw [Get_fst, hnone]
    rfl
  · rw [Get_fst, ← AList.lookup_isSome]
    cases hl : this.candidates.lookup candidateId with
    | none => simp
    | some ref =>
      have := hinv candidateId
      rw [hl] at this
      cases ref with
      | none => exact absurd rfl this
      | some a => simp

/-- Witness of C4: looking up ids 100 (present) and 3 (absent) in `sampleManager`. -/
theorem Get_found_iff_witness :
    sampleManager.NoNullEntry ∧
      ((∀ ref, sampleManager.candidates.lookup 100 = some ref →
          (sampleManager.Get 100).1 = ref) ∧
        (sampleManager.candidates.lookup 100 = none → (sampleManager.Get 100).1 = none) ∧
        ((sampleManager.Get 100).1 ≠ none ↔ 100 ∈ sampleManager.candidates) ∧
        (sampleManager.Get 100).2 = sampleManager) :=
  ⟨NoNullEntry_sampleManager, Get_found_iff sampleManager 100 NoNullEntry_sampleManager⟩

/-! ## Size and ids over sequences of calls -/

/-- C7: for every registry state, `maxAge` and `now`, the sweep removes the entry of a
candidate created at time `t` if and only if `now - t > maxAge`, and an entry with
`now - t <= maxAge` is still returned by `Get` afterwards, with the same handle (the sweep
acts on the manager only, so the object behind the handle is untouched). -/
theorem RemoveOldCandidates_iff (this : CMiningCandidateManager) (maxAge now t : Int)
    (candidateId : MiningCandidateId) (ref : CMiningCandidateRef)
    (hentry : this.candidates.lookup candidateId = some ref)
    (hcreated : this.createdAt.lookup candidateId = some t) :
    ((this.RemoveOldCandidates maxAge now).candidates.lookup candidateId = none ↔
        now - t > maxAge) ∧
      (now - t ≤ maxAge →
        (this.RemoveOldCandidates maxAge now).candidates.lookup candidateId = some ref ∧
        ((this.RemoveOldCandidates maxAge now).Get candidateId).1 = ref ∧
        ((this.RemoveOldCandidates maxAge now).Get candidateId).1
          = (this.Get candidateId).1) := by
  have hmem : candidateId ∈ this.candidates := by
    rw [← AList.lookup_isSome, hentry]
    rfl
  have hstale : this.isStale maxAge now candidateId = true ↔ now - t > maxAge := by
    simp only [CMiningCandidateManager.isStale, hcreated, decide_eq_true_eq]
    omega
  have hkeep : now - t ≤ maxAge →
      (this.RemoveOldCandidates maxAge now).candidates.lookup candidateId = some ref := by
    intro hle
    simp only [CMiningCandidateManager.RemoveOldCandidates]
    rw [lookup_foldl_erase_of_not_mem, hentry]
    rw [List.mem_filter, hstale]
    omega
  constructor
  · constructor
    · intro hnone
      by_contra hcon
      rw [hkeep (by omega)] at hnone
      cases hnone
    · intro hold
      rw [AList.lookup_eq_none]
      simp only [CMiningCandidateManager.RemoveOldCandidates]
      rw [mem_foldl_erase, List.mem_filter, hstale]
      intro hcon
      exact hcon.1 ⟨AList.mem_keys.mp hmem, hold⟩
  · intro hle
    refine ⟨hkeep hle, ?_, ?_⟩
    · rw [Get_fst, hkeep hle]
      rfl
    · rw [Get_fst, Get_fst, hkeep hle, hentry]

/-- Witness of C7: candidates created at times 0 and 5, swept with `maxAge = 10` at
`now = 12`; here for the candidate created at time 0. -/
theorem RemoveOldCandidates_iff_witness :
    (sampleTwo.candidates.lookup 100 = some (some 0) ∧
      sampleTwo.createdAt.lookup 100 = some 0) ∧
    (((sampleTwo.RemoveOldCandidates 10 12).candidates.lookup 100 = none ↔
        (12 : Int) - 0 > 10) ∧
      ((12 : Int) - 0 ≤ 10 →
        (sampleTwo.RemoveOldCandidates 10 12).candidates.lookup 100 = some (some 0) ∧
        ((sampleTwo.RemoveOldCandidates 10 12).Get 100).1 = some 0 ∧
        ((sampleTwo.RemoveOldCandidates 10 12).Get 100).1 = (sampleTwo.Get 100).1)) :=
  ⟨⟨rfl, rfl⟩, RemoveOldCandidates_iff sampleTwo 10 12 0 100 (some 0) rfl rfl⟩

/-! ## The candidate object -/

/-- C8, at the failing input: the constructor links the candidate to a block with the given
previous-block hash, but after `SetBlock` with the null reference `GetBlock()` returns the
null reference, which points at no block at all. -/
theorem SetBlock_null_loses_block :
    (CMiningCandidate.ctor 1 55 []).1.GetBlock = some 0 ∧
      Memory.blockAt { blocks := (CMiningCandidate.ctor 1 55 []).2, objects := [] }
        (CMiningCandidate.ctor 1 55 []).1.GetBlock
        = some { hashPrevBlock := 55, payload := [] } ∧
      ((CMiningCandidate.ctor 1 55 []).1.calls [.setBlock none]).GetBlock = none ∧
      Memory.blockAt { blocks := (CMiningCandidate.ctor 1 55 []).2, objects := [] }
        ((CMiningCandidate.ctor 1 55 []).1.calls [.setBlock none]).GetBlock = none := by
  decide

/-- C9: a candidate constructed with id `i` still returns `i` from `GetId()` after every
sequence of `SetBlock`, `GetBlock` and `GetId` calls. -/
theorem GetId_immutable (i : MiningCandidateId) (hashPrevBlock : uint256)
    (blocks : List CBlock) (cs : List CandidateCall) :
    ((CMiningCandidate.ctor i hashPrevBlock blocks).1.calls cs).GetId = i := by
  have key : ∀ (cs : List CandidateCall) (c : CMiningCandidate),
      (c.calls cs).GetId = c.GetId := by
    intro cs
    induction cs with
    | nil => intro c; rfl
    | cons a as ih =>
      intro c
      have hstep : (c.call a).GetId = c.GetId := by cases a <;> rfl
      simp only [CMiningCandidate.calls, List.foldl_cons] at ih ⊢
      rw [ih, hstep]
  rw [key, ctor_fst]
  rfl

/-- C10: `GetBlock()` after `SetBlock(b)` returns `b`, and after a later `SetBlock(b2)` it
returns `b2`: the last write wins. -/
theorem GetBlock_SetBlock (this : CMiningCandidate) (b b2 : CBlockRef) :
    (this.SetBlock b).GetBlock = b ∧
      ((this.SetBlock b).SetBlock b2).GetBlock = b2 ∧
      (this.calls [.setBlock b, .getBlock, .setBlock b2]).GetBlock = b2 :=
  ⟨rfl, rfl, rfl⟩

/-! ## Handles, frames and key identity -/

theorem SetBlock_candidateAt {mem mem' : Memory} {p : CMiningCandidateRef}
    {blockRef : CBlockRef} (h : mem.SetBlock p blockRef = some mem')
    (q : CMiningCandidateRef) (c : CMiningCandidate) (hq : mem.candidateAt q = some c) :
    ∃ c', mem'.candidateAt q = some c' ∧ c'.GetId = c.GetId := by
  cases p with
  | none => simp [Memory.SetBlock] at h
  | some a =>
    simp only [Memory.SetBlock] at h
    cases hobj : mem.objects[a]? with
    | none => simp [hobj] at h
    | some c0 =>
      simp only [hobj, Option.some.injEq] at h
      subst h
      cases q with
      | none => simp [Memory.candidateAt] at hq
      | some b =>
        simp only [Memory.candidateAt] at hq ⊢
        by_cases hab : a = b
        · subst hab
          rw [hobj] at hq
          cases hq
          have hlt : a < mem.objects.length := by
            rcases List.getElem?_eq_some.mp hobj with ⟨hlt, _⟩
            exact hlt
          exact ⟨_, List.getElem?_set_self hlt, rfl⟩
        · exact ⟨c, by rw [List.getElem?_set_ne hab]; exact hq, rfl⟩

theorem KeyIdentity_sampleManager : sampleManager.KeyIdentity sampleMemory := by
  intro candidateId ref href
  by_cases hid : candidateId = 100
  · subst hid
    have : ref = some 0 := by
      have h0 : sampleManager.candidates.lookup 100 = some (some 0) := rfl
      rw [h0] at href
      exact (Option.some.inj href).symm
    subst this
    exact ⟨{ block := some 0, id := 100 }, rfl, rfl⟩
  · have hnone : sampleManager.candidates.lookup candidateId = none := by
      simp only [sampleManager]
      rw [AList.lookup_insert_ne hid]
      exact AList.lookup_empty _
    rw [hnone] at href
    cases href

/-! ### Use counts under the registry operations -/

theorem getD_set_uses (l : List Nat) (a b x : Nat) :
    ((l.set a x)[b]?).getD 0 = if a = b ∧ a < l.length then x else (l[b]?).getD 0 := by
  rw [List.getElem?_set]
  by_cases hab : a = b
  · subst hab
    by_cases hlt : a < l.length
    · simp [hlt]
    · simp [hlt, List.getElem?_eq_none (Nat.le_of_not_lt hlt)]
  · simp [hab]

theorem lt_length_of_uses_pos (l : List Nat) (a : Nat) (h : 0 < (l[a]?).getD 0) :
    a < l.length := by
  by_contra hlt
  rw [List.getElem?_eq_none (Nat.le_of_not_lt hlt)] at h
  simp at h

theorem countP_kerase_of_dlookup
    (q : (Sigma fun _ : MiningCandidateId => CMiningCandidateRef) → Bool) :
    ∀ (l : List (Sigma fun _ : MiningCandidateId => CMiningCandidateRef))
      (candidateId : MiningCandidateId) (v : CMiningCandidateRef),
      l.dlookup candidateId = some v →
      (l.kerase candidateId).countP q + (if q ⟨candidateId, v⟩ then 1 else 0)
        = l.countP q := by
  intro l
  induction l with
  | nil =>
    intro candidateId v h
    simp at h
  | cons e t ih =>
    intro candidateId v h
    obtain ⟨k, x⟩ := e
    by_cases hk : candidateId = k
    · subst hk
      rw [List.dlookup_cons_eq] at h
      cases h
      have hke : List.kerase candidateId (⟨candidateId, v⟩ :: t) = t :=
        List.kerase_cons_eq rfl
      rw [hke, List.countP_cons]
    · rw [List.dlookup_cons_ne _ _ hk] at h
      rw [List.kerase_cons_ne hk, List.countP_cons, List.countP_cons, ← ih candidateId v h]
      omega

theorem mapCopies_erase (m : CandidateMap) (candidateId : MiningCandidateId)
    (v p : CMiningCandidateRef) (h : m.lookup candidateId = some v) :
    mapCopies (m.erase candidateId) p + (if v = p then 1 else 0) = mapCopies m p := by
  have := countP_kerase_of_dlookup (fun e => decide (e.2 = p)) m.entries candidateId v h
  simpa [mapCopies, AList.erase] using this

theorem mapCopies_pos (m : CandidateMap) (candidateId : MiningCandidateId)
    (v : CMiningCandidateRef) (h : m.lookup candidateId = some v) : 1 ≤ mapCopies m v := by
  have := mapCopies_erase m candidateId v v h
  simp only [if_true] at this
  omega

theorem mapCopies_insert (m : CandidateMap) (candidateId : MiningCandidateId)
    (v p : CMiningCandidateRef) (h : candidateId ∉ m) :
    mapCopies (m.insert candidateId v) p = mapCopies m p + (if v = p then 1 else 0) := by
  simp only [mapCopies, AList.insert_entries_of_neg h, List.countP_cons, decide_eq_true_eq]

theorem Consistent_init (seed : Nat) : (SharedWorld.init seed).Consistent := by
  refine ⟨rfl, fun a => ?_⟩
  simp [SharedWorld.init, CMiningCandidateManager.init, mapCopies]

/-- A handle that a caller holds keeps its object alive across `Remove`: when the object
behind `p` has more owners than the map has copies of `p`, that is still so after
`Remove(id)`, the use counts stay sound and the memory is not written. -/
theorem Remove_held (sw : SharedWorld) (candidateId : MiningCandidateId)
    (p : CMiningCandidateRef) (hcons : sw.Consistent)
    (hheld : mapCopies sw.mgr.candidates p < sw.use_count p) :
    (sw.Remove candidateId).Consistent ∧
      mapCopies (sw.Remove candidateId).mgr.candidates p
        < (sw.Remove candidateId).use_count p ∧
      (sw.Remove candidateId).mem = sw.mem := by
  unfold SharedWorld.Remove
  cases hl : sw.mgr.candidates.lookup candidateId with
  | none =>
    have habs : candidateId ∉ sw.mgr.candidates := AList.lookup_eq_none.mp hl
    have herase : sw.mgr.candidates.erase candidateId = sw.mgr.candidates :=
      erase_absent candidateId _ habs
    refine ⟨⟨hcons.1, fun a => ?_⟩, ?_, rfl⟩
    · simpa [CMiningCandidateManager.Remove, herase, SharedWorld.use_count] using hcons.2 a
    · simpa [CMiningCandidateManager.Remove, herase, SharedWorld.use_count] using hheld
  | some v =>
    have hcopies := fun q => mapCopies_erase sw.mgr.candidates candidateId v q hl
    cases v with
    | none =>
      refine ⟨⟨hcons.1, fun a => ?_⟩, ?_, rfl⟩
      · have h1 := hcopies (some a)
        have h2 := hcons.2 a
        simp only [SharedWorld.release, CMiningCandidateManager.Remove,
          SharedWorld.use_count] at h1 h2 ⊢
        simp only [reduceCtorEq, if_false] at h1
        omega
      · have h1 := hcopies p
        cases p with
        | none => simp [SharedWorld.use_count] at hheld
        | some a =>
          simp only [SharedWorld.release, CMiningCandidateManager.Remove,
            SharedWorld.use_count] at h1 hheld ⊢
          simp only [reduceCtorEq, if_false] at h1
          omega
    | some b =>
      have hpos : 1 ≤ mapCopies sw.mgr.candidates (some b) := mapCopies_pos _ _ _ hl
      have hb := hcons.2 b
      have hblt : b < sw.objectUses.length :=
        lt_length_of_uses_pos _ _ (by
          simp only [SharedWorld.use_count] at hb
          omega)
      refine ⟨⟨?_, fun a => ?_⟩, ?_, rfl⟩
      · simpa [SharedWorld.release] using hcons.1
      · have h1 := hcopies (some a)
        have h2 := hcons.2 a
        simp only [SharedWorld.release, CMiningCandidateManager.Remove,
          SharedWorld.use_count, getD_set_uses] at h1 h2 hb ⊢
        by_cases hab : b = a
        · subst hab
          simp only [if_true, hblt, and_self] at h1 ⊢
          omega
        · have hne : ¬ (some b = some a) := fun h => hab (Option.some.inj h)
          simp only [hne, if_false, hab, false_and] at h1 ⊢
          omega
      · cases p with
        | none => simp [SharedWorld.use_count] at hheld
        | some a =>
          have h1 := hcopies (some a)
          simp only [SharedWorld.release, CMiningCandidateManager.Remove,
            SharedWorld.use_count, getD_set_uses] at h1 hheld hb ⊢
          by_cases hab : b = a
          · subst hab
            simp only [if_true, hblt, and_self] at h1 ⊢
            omega
          · have hne : ¬ (some b = some a) := fun h => hab (Option.some.inj h)
            simp only [hne, if_false, hab, false_and] at h1 ⊢
            omega

theorem getD_append_uses (l : List Nat) (x b : Nat) :
    (((l ++ [x])[b]?).getD 0)
      = if b < l.length then (l[b]?).getD 0 else if b = l.length then x else 0 := by
  by_cases hlt : b < l.length
  · rw [List.getElem?_append_left hlt, if_pos hlt]
  · rw [if_neg hlt, List.getElem?_append_right (Nat.le_of_not_lt hlt)]
    by_cases heq : b = l.length
    · subst heq
      simp
    · have hpos : 0 < b - l.length := by omega
      have hnone : [x][b - l.length]? = none :=
        List.getElem?_eq_none (by simp only [List.length_singleton]; omega)
      rw [hnone, if_neg heq]
      rfl

/-- The handle that `Get` hands out is held by the caller: the object behind it has one more
owner than the map has copies of the handle. -/
theorem Get_held (sw : SharedWorld) (candidateId : MiningCandidateId)
    (hcons : sw.Consistent) (hfound : (sw.Get candidateId).1 ≠ none) :
    (sw.Get candidateId).2.Consistent ∧
      mapCopies (sw.Get candidateId).2.mgr.candidates (sw.Get candidateId).1
        < (sw.Get candidateId).2.use_count (sw.Get candidateId).1 := by
  simp only [SharedWorld.Get, Get_fst, Get_snd] at hfound ⊢
  cases hl : sw.mgr.candidates.lookup candidateId with
  | none => simp [hl] at hfound
  | some v =>
    cases v with
    | none => simp [hl] at hfound
    | some b =>
      have hpos : 1 ≤ mapCopies sw.mgr.candidates (some b) := mapCopies_pos _ _ _ hl
      have hb := hcons.2 b
      have hblt : b < sw.objectUses.length :=
        lt_length_of_uses_pos _ _ (by
          simp only [SharedWorld.use_count] at hb
          omega)
      simp only [Option.getD_some, SharedWorld.acquire]
      refine ⟨⟨?_, fun a => ?_⟩, ?_⟩
      · simpa using hcons.1
      · have h2 := hcons.2 a
        simp only [SharedWorld.use_count, getD_set_uses] at h2 ⊢
        by_cases hab : b = a
        · subst hab
          simp only [if_true, hblt, and_self]
          omega
        · simp only [hab, false_and, if_false]
          exact h2
      · simp only [SharedWorld.use_count, getD_set_uses, if_true, hblt, and_self] at hb ⊢
        omega

/-- The handle that `Create` returns is held by the caller. -/
theorem Create_held {generate : Nat → MiningCandidateId × Nat} {now : Int} {h : uint256}
    {sw sw1 : SharedWorld} {p : CMiningCandidateRef} (hcons : sw.Consistent)
    (hc : sw.Create generate now h = some (p, sw1)) :
    sw1.Consistent ∧ mapCopies sw1.mgr.candidates p < sw1.use_count p := by
  by_cases hfresh : (generate sw.mgr.mIdGenerator).1 ∈ sw.mgr.candidates.keys
  · simp [SharedWorld.Create, Create_eq_none hfresh] at hc
  · simp only [SharedWorld.Create, Create_eq_some hfresh, Option.some.injEq,
      Prod.mk.injEq] at hc
    obtain ⟨hp, hsw⟩ := hc
    subst hp hsw
    have hlen := hcons.1
    have hins := fun q => mapCopies_insert sw.mgr.candidates (generate sw.mgr.mIdGenerator).1
      (some sw.mem.objects.length) q hfresh
    have hnew : mapCopies sw.mgr.candidates (some sw.mem.objects.length) = 0 := by
      have h2 := hcons.2 sw.mem.objects.length
      simp only [SharedWorld.use_count] at h2
      rw [List.getElem?_eq_none (by omega)] at h2
      simpa using h2
    refine ⟨⟨by simp [hlen], fun a => ?_⟩, ?_⟩
    · have h2 := hcons.2 a
      simp only [SharedWorld.use_count, getD_append_uses, hins] at h2 ⊢
      by_cases hlt : a < sw.objectUses.length
      · have hne : ¬ (some sw.mem.objects.length = some a) := by
          intro heq
          have := Option.some.inj heq
          omega
        simp only [hlt, if_true, hne, if_false]
        omega
      · by_cases heq : a = sw.objectUses.length
        · subst heq
          rw [← hlen] at hnew
          simp only [hnew, hlt, if_false, if_true]
          split <;> omega
        · rw [List.getElem?_eq_none (by omega)] at h2
          have hne : ¬ (some sw.mem.objects.length = some a) := by
            intro h3
            have := Option.some.inj h3
            omega
          simp only [hlt, heq, if_false, hne]
          simpa using h2
    · simp [SharedWorld.use_count, getD_append_uses, hins, hnew, hlen]

/-- C11: a candidate handle `p` that a caller obtained from `Create` or from `Get` (not
null) before `Remove(id)` still points at a live candidate after `Remove(id)` has run:
`GetId()` and `GetBlock()` through `p` succeed and yield the same id and the same block
reference as before, although the registry has released its own handle for `id`. -/
theorem Remove_keeps_held_handles (generate : Nat → MiningCandidateId × Nat) (now : Int)
    (h : uint256) (sw sw1 : SharedWorld) (given candidateId : MiningCandidateId)
    (p : CMiningCandidateRef) (hcons : sw.Consistent)
    (hobtained : sw.Create generate now h = some (p, sw1) ∨
      (sw.Get given = (p, sw1) ∧ p ≠ none)) :
    (sw1.GetId p).isSome ∧ (sw1.GetBlock p).isSome ∧
      (sw1.Remove candidateId).GetId p = sw1.GetId p ∧
      (sw1.Remove candidateId).GetBlock p = sw1.GetBlock p ∧
      0 < (sw1.Remove candidateId).use_count p ∧
      (sw1.Remove candidateId).mgr = sw1.mgr.Remove candidateId ∧
      (sw1.Remove candidateId).mgr.candidates.lookup candidateId = none := by
  have hheld : sw1.Consistent ∧ mapCopies sw1.mgr.candidates p < sw1.use_count p := by
    rcases hobtained with hc | ⟨hg, hp⟩
    · exact Create_held hcons hc
    · have h1 : (sw.Get given).1 = p := by rw [hg]
      have h2 : (sw.Get given).2 = sw1 := by rw [hg]
      have := Get_held sw given hcons (by rw [h1]; exact hp)
      rwa [h1, h2] at this
  obtain ⟨hcons1, hheld1⟩ := hheld
  obtain ⟨_, hheld2, hmem⟩ := Remove_held sw1 candidateId p hcons1 hheld1
  have hpos1 : 0 < sw1.use_count p := by omega
  have hpos2 : 0 < (sw1.Remove candidateId).use_count p := by omega
  have hmgr : (sw1.Remove candidateId).mgr = sw1.mgr.Remove candidateId := by
    unfold SharedWorld.Remove
    cases sw1.mgr.candidates.lookup candidateId <;> rfl
  have hobj : (sw1.mem.candidateAt p).isSome := by
    cases p with
    | none => simp [SharedWorld.use_count] at hpos1
    | some a =>
      have hlt : a < sw1.mem.objects.length := by
        rw [← hcons1.1]
        exact lt_length_of_uses_pos _ _ hpos1
      simp [Memory.candidateAt, List.getElem?_eq_getElem hlt]
  refine ⟨?_, ?_, ?_, ?_, hpos2, hmgr, ?_⟩
  · simpa [SharedWorld.GetId, hpos1, Memory.GetId] using hobj
  · simpa [SharedWorld.GetBlock, hpos1, Memory.GetBlock] using hobj
  · simp only [SharedWorld.GetId, hpos1, hpos2, if_true, hmem]
  · simp only [SharedWorld.GetBlock, hpos1, hpos2, if_true, hmem]
  · rw [hmgr]
    simp [CMiningCandidateManager.Remove]

/-- Witness of C11: the handle returned by `Create` on a fresh registry, then `Remove` of
the id of that very candidate. -/
theorem Remove_keeps_held_handles_witness :
    (SharedWorld.init 0).Consistent ∧
      ((SharedWorld.init 0).Create sampleCounter 0 55 = some (some 0, sampleShared) ∨
        ((SharedWorld.init 0).Get 100 = (some 0, sampleShared) ∧
          (some 0 : CMiningCandidateRef) ≠ none)) ∧
      ((sampleShared.GetId (some 0)).isSome ∧ (sampleShared.GetBlock (some 0)).isSome ∧
        (sampleShared.Remove 100).GetId (some 0) = sampleShared.GetId (some 0) ∧
        (sampleShared.Remove 100).GetBlock (some 0) = sampleShared.GetBlock (some 0) ∧
        0 < (sampleShared.Remove 100).use_count (some 0) ∧
        (sampleShared.Remove 100).mgr = sampleShared.mgr.Remove 100 ∧
        (sampleShared.Remove 100).mgr.candidates.lookup 100 = none) :=
  ⟨Consistent_init 0, Or.inl rfl,
    Remove_keeps_held_handles sampleCounter 0 55 (SharedWorld.init 0) sampleShared 100 100
      (some 0) (Consistent_init 0) (Or.inl rfl)⟩

/-- C13: `Remove(id)` touches only the entry for `id`: for `id2` different from `id`, the
entry looked up under `id2` (a handle, or absent) is the same before and after, and the
generator state is untouched. -/
theorem Remove_other_entry (this : CMiningCandidateManager)
    (candidateId id2 : MiningCandidateId) (hne : id2 ≠ candidateId) :
    (this.Remove candidateId).candidates.lookup id2 = this.candidates.lookup id2 ∧
      (id2 ∈ (this.Remove candidateId).candidates ↔ id2 ∈ this.candidates) ∧
      (this.Remove candidateId).mIdGenerator = this.mIdGenerator := by
  refine ⟨?_, ?_, rfl⟩
  · simp only [CMiningCandidateManager.Remove]
    exact AList.lookup_erase_ne hne
  · simp only [CMiningCandidateManager.Remove, AList.mem_erase]
    exact ⟨fun h => h.2, fun h => ⟨hne, h⟩⟩

/-- Witness of C13: removing id 100 from `sampleTwo` and looking up id 101. -/
theorem Remove_other_entry_witness :
    (101 : MiningCandidateId) ≠ 100 ∧
      ((sampleTwo.Remove 100).candidates.lookup 101 = sampleTwo.candidates.lookup 101 ∧
        (101 ∈ (sampleTwo.Remove 100).candidates ↔ 101 ∈ sampleTwo.candidates) ∧
        (sampleTwo.Remove 100).mIdGenerator = sampleTwo.mIdGenerator) :=
  ⟨by decide, Remove_other_entry sampleTwo 100 101 (by decide)⟩

/-- C14: `Size()` after `Remove(id)` is `Size()` before minus one when the registry had an
entry for `id` (and then `Size()` before was at least one), it is `Size()` before when it
had none, and `Size()` itself leaves the registry unchanged. -/
theorem Size_after_Remove (this : CMiningCandidateManager) (candidateId : MiningCandidateId) :
    (candidateId ∈ this.candidates →
        (this.Remove candidateId).Size.1 = this.Size.1 - 1 ∧ 1 ≤ this.Size.1) ∧
      (candidateId ∉ this.candidates → (this.Remove candidateId).Size.1 = this.Size.1) ∧
      this.Size.2 = this := by
  refine ⟨?_, ?_, rfl⟩
  · intro hmem
    have h := size_erase_of_mem this.candidates candidateId hmem
    simp only [CMiningCandidateManager.Size, CMiningCandidateManager.Remove]
    omega
  · intro hmem
    simp only [CMiningCandidateManager.Size, CMiningCandidateManager.Remove]
    rw [erase_absent candidateId this.candidates hmem]

/-- Witness of C14: removing id 100 (present) and id 3 (absent) from `sampleTwo`. -/
theorem Size_after_Remove_witness :
    (100 ∈ sampleTwo.candidates ∧
        (sampleTwo.Remove 100).Size.1 = sampleTwo.Size.1 - 1 ∧ 1 ≤ sampleTwo.Size.1) ∧
      (3 ∉ sampleTwo.candidates ∧ (sampleTwo.Remove 3).Size.1 = sampleTwo.Size.1) ∧
      sampleTwo.Size.2 = sampleTwo :=
  ⟨⟨by decide, (Size_after_Remove sampleTwo 100).1 (by decide)⟩,
    ⟨by decide, (Size_after_Remove sampleTwo 3).2.1 (by decide)⟩,
    (Size_after_Remove sampleTwo 3).2.2⟩

/-- C15: if every entry of the map points at a candidate whose `GetId()` is its key, then
this still holds after any `Remove(id)` and after any `SetBlock` call on a stored candidate
(the call succeeds), and the handle stored under a key reports that key as its `GetId()`. -/
theorem KeyIdentity_preserved (this : CMiningCandidateManager) (mem : Memory)
    (hinv : this.KeyIdentity mem) :
    (∀ candidateId, (this.Remove candidateId).KeyIdentity mem) ∧
      (∀ candidateId p blockRef, this.candidates.lookup candidateId = some p →
        ∃ mem', mem.SetBlock p blockRef = some mem' ∧ this.KeyIdentity mem' ∧
          mem'.GetId p = some candidateId ∧ mem'.GetBlock p = some blockRef) ∧
      (∀ candidateId p, this.candidates.lookup candidateId = some p →
        mem.GetId p = some candidateId) := by
  refine ⟨?_, ?_, ?_⟩
  · intro candidateId x ref href
    by_cases hx : x = candidateId
    · subst hx
      simp [CMiningCandidateManager.Remove] at href
    · simp only [CMiningCandidateManager.Remove, AList.lookup_erase_ne hx] at href
      exact hinv x ref href
  · intro candidateId p blockRef hp
    obtain ⟨c, hc, hid⟩ := hinv candidateId p hp
    cases p with
    | none => simp [Memory.candidateAt] at hc
    | some a =>
      simp only [Memory.candidateAt] at hc
      have hset : mem.SetBlock (some a) blockRef
          = some { mem with objects := mem.objects.set a (c.SetBlock blockRef) } := by
        simp only [Memory.SetBlock, hc]
      have hlt : a < mem.objects.length := by
        rcases List.getElem?_eq_some.mp hc with ⟨hlt, _⟩
        exact hlt
      refine ⟨_, hset, ?_, ?_, ?_⟩
      · intro x ref href
        obtain ⟨cx, hcx, hidx⟩ := hinv x ref href
        obtain ⟨c', hc', hid'⟩ := SetBlock_candidateAt hset ref cx hcx
        exact ⟨c', hc', hid'.trans hidx⟩
      · simp only [Memory.GetId, Memory.candidateAt, List.getElem?_set_self hlt,
          Option.map_some']
        exact congrArg some hid
      · simp only [Memory.GetBlock, Memory.candidateAt, List.getElem?_set_self hlt,
          Option.map_some']
        rfl
  · intro candidateId p hp
    obtain ⟨c, hc, hid⟩ := hinv candidateId p hp
    simp only [Memory.GetId, hc, Option.map_some']
    exact congrArg some hid

/-- Witness of C15: `sampleManager` with its memory, removing id 100 and setting the block
of the stored candidate to the null reference. -/
theorem KeyIdentity_preserved_witness :
    sampleManager.KeyIdentity sampleMemory ∧
      (sampleManager.Remove 100).KeyIdentity sampleMemory ∧
      (∃ mem', sampleMemory.SetBlock (some 0) none = some mem' ∧
        sampleManager.KeyIdentity mem' ∧
        mem'.GetId (some 0) = some 100 ∧ mem'.GetBlock (some 0) = some none) ∧
      sampleMemory.GetId (some 0) = some 100 :=
  ⟨KeyIdentity_sampleManager,
    (KeyIdentity_preserved sampleManager sampleMemory KeyIdentity_sampleManager).1 100,
    (KeyIdentity_preserved sampleManager sampleMemory KeyIdentity_sampleManager).2.1
      100 (some 0) none rfl,
    (KeyIdentity_preserved sampleManager sampleMemory KeyIdentity_sampleManager).2.2
      100 (some 0) rfl⟩
